import Mathlib

/-!
Verification of the `ident_gen` crate (`src/lib.rs`).

The crate is a deterministic identifier generator: an engine owns an ordered
character table and a current identifier string, and `advance(offset)` moves
the identifier forward or backward by `offset` positions, with carry and
borrow propagation handled by recursion.

Shallow embedding choices:
* A Rust `String` of identifier characters is a `List Char`; a `&[char]`
  table is a `List Char`.
* Rust panics (`unwrap` on `None`, out-of-bounds indexing) are modelled by
  returning `none`; a normal return is `some`.
* The recursive `advance` strictly decreases `i.natAbs`; we realise it as a
  structurally recursive function on a fuel argument `i.natAbs + 1`, so that
  it evaluates by kernel reduction.  `advanceFuel_congr` shows any
  sufficiently large fuel gives the same answer, which yields the exact
  unfolding equations of the source recursion.
* `advanceDFuel` is the same recursion instrumented with the count of
  recursive calls performed (the recursion depth), used for the
  resource-bound claims.
-/

/-- `DEFAULT_TABLE` from the source: lower snake-case alphabet, in the
source's exact (non-alphabetical) order. -/
def DEFAULT_TABLE : List Char :=
  ['a', 'b', 'c', 'd', 'f', 'e', 'g', 'h', 'i', 'j', 'k', 'l', 'm', 'n',
   'o', 'p', 'q', 'r', 's', 't', 'u', 'v', 'w', 'x', 'z', '_']

/-- `UPPER_SNAKE` from the source: upper snake-case alphabet. -/
def UPPER_SNAKE : List Char :=
  ['A', 'B', 'C', 'D', 'F', 'E', 'G', 'H', 'I', 'J', 'K', 'L', 'M', 'N',
   'O', 'P', 'Q', 'R', 'S', 'T', 'U', 'V', 'W', 'X', 'Z', '_']

/-- `get_last_char` from the source: `x.chars().last().unwrap()`.  The
`unwrap` panic on an empty string is modelled by `none`. -/
def get_last_char (x : List Char) : Option Char :=
  x.getLast?

/-- `replace_last_char` from the source: `x.pop(); x.push(c)`. -/
def replace_last_char (x : List Char) (c : Char) : List Char :=
  x.dropLast ++ [c]

/-- One step of the source's `advance` recursion, with the recursive call
abstracted as `rec`.  This is a line-by-line transcription of the body of
`fn advance(table, ident, i)` in `src/lib.rs`; the source's panic points
(`unwrap` of a `None`, out-of-bounds indexing) yield `none`. -/
def advanceStep (table : List Char)
    (rec : List Char → Int → Option (List Char))
    (ident : List Char) (i : Int) : Option (List Char) :=
  if ident = [] then
    if 0 < i then
      match table.head? with
      | none => none
      | some c => rec (ident ++ [c]) (i - 1)
    else some ident
  else if i = 0 then
    some ident
  else
    match get_last_char ident with
    | none => none
    | some a =>
      match table.findIdx? (fun y => a == y) with
      | none => none
      | some x =>
        let y : Int := i + (x : Int)
        if i < 0 then
          if y < 0 then
            rec ident.dropLast (i + 1)
          else
            match table.get? y.toNat with
            | none => none
            | some t => some (replace_last_char ident t)
        else if (table.length : Int) ≤ y then
          match table.getLast?, table.head? with
          | some l, some f =>
            rec (replace_last_char ident l ++ [f]) (y - (table.length : Int))
          | _, _ => none
        else
          match table.get? y.toNat with
          | none => none
          | some t => some (replace_last_char ident t)

/-- The source's recursive `advance`, realised by structural recursion on a
fuel argument; fuel `i.natAbs + 1` always suffices (`advanceDFuel_congr`). -/
def advanceFuel (table : List Char) : Nat → List Char → Int → Option (List Char)
  | 0, _, _ => none
  | fuel + 1, ident, i => advanceStep table (advanceFuel table fuel) ident i

/-- The source's `advance(table, ident, i)`: run the recursion with enough
fuel. -/
def advance (table ident : List Char) (i : Int) : Option (List Char) :=
  advanceFuel table (i.natAbs + 1) ident i

/-- One step of the same recursion instrumented with the count of recursive
calls performed (the recursion depth). -/
def advanceDStep (table : List Char)
    (rec : List Char → Int → Option (List Char × Nat))
    (ident : List Char) (i : Int) : Option (List Char × Nat) :=
  if ident = [] then
    if 0 < i then
      match table.head? with
      | none => none
      | some c =>
        (rec (ident ++ [c]) (i - 1)).map (fun r => (r.1, r.2 + 1))
    else some (ident, 0)
  else if i = 0 then
    some (ident, 0)
  else
    match get_last_char ident with
    | none => none
    | some a =>
      match table.findIdx? (fun y => a == y) with
      | none => none
      | some x =>
        let y : Int := i + (x : Int)
        if i < 0 then
          if y < 0 then
            (rec ident.dropLast (i + 1)).map (fun r => (r.1, r.2 + 1))
          else
            match table.get? y.toNat with
            | none => none
            | some t => some (replace_last_char ident t, 0)
        else if (table.length : Int) ≤ y then
          match table.getLast?, table.head? with
          | some l, some f =>
            (rec (replace_last_char ident l ++ [f])
                (y - (table.length : Int))).map (fun r => (r.1, r.2 + 1))
          | _, _ => none
        else
          match table.get? y.toNat with
          | none => none
          | some t => some (replace_last_char ident t, 0)

/-- `advanceFuel` instrumented with the recursion depth; identical control
flow. -/
def advanceDFuel (table : List Char) :
    Nat → List Char → Int → Option (List Char × Nat)
  | 0, _, _ => none
  | fuel + 1, ident, i => advanceDStep table (advanceDFuel table fuel) ident i

/-- `advance` together with its recursion depth. -/
def advanceD (table ident : List Char) (i : Int) : Option (List Char × Nat) :=
  advanceDFuel table (i.natAbs + 1) ident i

/-- Alias for the free function `advance`, used inside the method
namespaces where the method name shadows it. -/
def advanceCore : List Char → List Char → Int → Option (List Char) :=
  advance

/-- State of the borrowing generator `IdentGen<'a>`. -/
structure IdentGen where
  ident : List Char
  table : List Char
deriving DecidableEq, Repr

/-- `IdentGen::new`: empty identifier; an empty table argument silently
falls back to `DEFAULT_TABLE`. -/
def IdentGen.new (table : List Char) : IdentGen :=
  { ident := [], table := if table = [] then DEFAULT_TABLE else table }

/-- `IdentGen::set_table`: rejects an empty table (source returns `None`,
modelled by the `false` flag) without touching the state; otherwise installs
the table (source returns `Some(self)`, modelled by the `true` flag). -/
def IdentGen.set_table (g : IdentGen) (table : List Char) : IdentGen × Bool :=
  if table = [] then (g, false) else ({ g with table := table }, true)

/-- `IdentGen::advance`: run the core algorithm on the stored state;
`none` models a panic. -/
def IdentGen.advance (g : IdentGen) (i : Int) : Option IdentGen :=
  (advanceCore g.table g.ident i).map (fun s => { g with ident := s })

/-- `IdentGen::next`: convenience for `advance(1)`. -/
def IdentGen.next (g : IdentGen) : Option IdentGen :=
  g.advance 1

/-- `IdentGen::prev`: convenience for `advance(-1)`. -/
def IdentGen.prev (g : IdentGen) : Option IdentGen :=
  g.advance (-1)

/-- `IdentGen::clear`: reset the identifier to empty. -/
def IdentGen.clear (g : IdentGen) : IdentGen :=
  { g with ident := [] }

/-- State of the owning generator `IdentGenOwned`. -/
structure IdentGenOwned where
  ident : List Char
  table : List Char
deriving DecidableEq, Repr

/-- `IdentGenOwned::new`: an empty table vector is extended with
`DEFAULT_TABLE`. -/
def IdentGenOwned.new (table : List Char) : IdentGenOwned :=
  { ident := [], table := if table = [] then table ++ DEFAULT_TABLE else table }

/-- `IdentGenOwned::advance`. -/
def IdentGenOwned.advance (g : IdentGenOwned) (i : Int) : Option IdentGenOwned :=
  (advanceCore g.table g.ident i).map (fun s => { g with ident := s })

/-- `IdentGenOwned::next`. -/
def IdentGenOwned.next (g : IdentGenOwned) : Option IdentGenOwned :=
  g.advance 1

/-- `IdentGenOwned::prev`. -/
def IdentGenOwned.prev (g : IdentGenOwned) : Option IdentGenOwned :=
  g.advance (-1)

/-- `IdentGenOwned::clear`. -/
def IdentGenOwned.clear (g : IdentGenOwned) : IdentGenOwned :=
  { g with ident := [] }

/-- `n` successive `next()` calls starting from a fresh (empty) identifier
over table `t`; `none` models a panic somewhere along the way. -/
def nexts (t : List Char) : Nat → Option (List Char)
  | 0 => some []
  | n + 1 => (nexts t n).bind (fun s => advance t s 1)

/-- Alphabet position the source looks up with
`table.iter().position(|y| a == y)`: index of the first match. -/
def idx (t : List Char) (c : Char) : Nat :=
  t.findIdx (fun y => c == y)

/-- Enumeration value realised by the code: each digit `c` contributes
`idx t c + 1`, summed over the identifier.  (This is the invariant the
code's carry/borrow arithmetic actually preserves.) -/
def tval (t : List Char) (ident : List Char) : Nat :=
  ident.foldl (fun acc c => acc + idx t c + 1) 0

/-- All digits of the identifier occur in the table. -/
def validIdent (t ident : List Char) : Prop :=
  ∀ c ∈ ident, c ∈ t

theorem advanceFuel_succ (t : List Char) (f : Nat) (ident : List Char) (i : Int) :
    advanceFuel t (f + 1) ident i = advanceStep t (advanceFuel t f) ident i :=
  rfl

theorem advanceDFuel_succ (t : List Char) (f : Nat) (ident : List Char) (i : Int) :
    advanceDFuel t (f + 1) ident i = advanceDStep t (advanceDFuel t f) ident i :=
  rfl

/-- Any fuel exceeding `i.natAbs` computes the same result: the source
recursion strictly decreases `|offset|`. -/
theorem advanceDFuel_congr (t : List Char) :
    ∀ (f g : Nat) (ident : List Char) (i : Int), i.natAbs < f → i.natAbs < g →
      advanceDFuel t f ident i = advanceDFuel t g ident i := by
  intro f
  induction f with
  | zero => intro g ident i hf _; exact absurd hf (Nat.not_lt_zero _)
  | succ f ih =>
    intro g ident i hf hg
    cases g with
    | zero => exact absurd hg (Nat.not_lt_zero _)
    | succ g =>
      simp only [advanceDFuel_succ, advanceDStep]
      by_cases hid : ident = []
      · subst hid
        by_cases hip : 0 < i
        · cases hh : t.head? with
          | none => simp [hip]
          | some c =>
            have hrec := ih g [c] (i - 1) (by omega) (by omega)
            simp [hip, hrec]
        · simp [hip]
      · by_cases hi0 : i = 0
        · simp [hid, hi0]
        · cases hga : get_last_char ident with
          | none => simp [hid, hi0, hga]
          | some a =>
            cases hfx : t.findIdx? (fun y => a == y) with
            | none => simp [hid, hi0, hga, hfx]
            | some x =>
              have hx : x < t.length :=
                (List.findIdx?_eq_some_iff_findIdx_eq.mp hfx).1
              by_cases hneg : i < 0
              · by_cases hy : i + (x : Int) < 0
                · have hrec := ih g ident.dropLast (i + 1) (by omega) (by omega)
                  simp [hid, hi0, hga, hfx, hneg, hy, hrec]
                · simp [hid, hi0, hga, hfx, hneg, hy]
              · by_cases hcar : (t.length : Int) ≤ i + (x : Int)
                · cases hl : t.getLast? with
                  | none => simp [hid, hi0, hga, hfx, hneg, hcar, hl]
                  | some l =>
                    cases hh : t.head? with
                    | none => simp [hid, hi0, hga, hfx, hneg, hcar, hl, hh]
                    | some c =>
                      have hrec := ih g (replace_last_char ident l ++ [c])
                        (i + (x : Int) - (t.length : Int)) (by omega) (by omega)
                      simp [hid, hi0, hga, hfx, hneg, hcar, hl, hh, hrec]
                · simp [hid, hi0, hga, hfx, hneg, hcar]

/-- Dropping the depth counter from the instrumented recursion recovers the
plain one. -/
theorem advanceFuel_eq_map_fst (t : List Char) :
    ∀ (f : Nat) (ident : List Char) (i : Int),
      advanceFuel t f ident i = (advanceDFuel t f ident i).map Prod.fst := by
  intro f
  induction f with
  | zero => intro ident i; rfl
  | succ f ih =>
    intro ident i
    simp only [advanceFuel_succ, advanceDFuel_succ, advanceStep, advanceDStep]
    by_cases hid : ident = []
    · subst hid
      by_cases hip : 0 < i
      · cases hh : t.head? with
        | none => simp [hip]
        | some c =>
          have hrec := ih [c] (i - 1)
          simp [hip, hrec, Option.map_map]
          rfl
      · simp [hip]
    · by_cases hi0 : i = 0
      · simp [hid, hi0]
      · cases hga : get_last_char ident with
        | none => simp [hid, hi0, hga]
        | some a =>
          cases hfx : t.findIdx? (fun y => a == y) with
          | none => simp [hid, hi0, hga, hfx]
          | some x =>
            by_cases hneg : i < 0
            · by_cases hy : i + (x : Int) < 0
              · have hrec := ih ident.dropLast (i + 1)
                simp [hid, hi0, hga, hfx, hneg, hy, hrec, Option.map_map]
                rfl
              · cases ht : t[(i + (x : Int)).toNat]? with
                | none => simp [hid, hi0, hga, hfx, hneg, hy, ht]
                | some c => simp [hid, hi0, hga, hfx, hneg, hy, ht]
            · by_cases hcar : (t.length : Int) ≤ i + (x : Int)
              · cases hl : t.getLast? with
                | none => simp [hid, hi0, hga, hfx, hneg, hcar, hl]
                | some l =>
                  cases hh : t.head? with
                  | none => simp [hid, hi0, hga, hfx, hneg, hcar, hl, hh]
                  | some c =>
                    have hrec := ih (replace_last_char ident l ++ [c])
                      (i + (x : Int) - (t.length : Int))
                    simp [hid, hi0, hga, hfx, hneg, hcar, hl, hh, hrec, Option.map_map]
                    rfl
              · cases ht : t[(i + (x : Int)).toNat]? with
                | none => simp [hid, hi0, hga, hfx, hneg, hcar, ht]
                | some c => simp [hid, hi0, hga, hfx, hneg, hcar, ht]

/-- `advance` is the first component of the instrumented run. -/
theorem advance_eq_map_fst (t ident : List Char) (i : Int) :
    advance t ident i = (advanceD t ident i).map Prod.fst :=
  advanceFuel_eq_map_fst t (i.natAbs + 1) ident i

theorem map_fst_step (o : Option (List Char × Nat)) :
    (o.map (fun r => (r.1, r.2 + 1))).map Prod.fst = o.map Prod.fst := by
  cases o <;> rfl

/-- Unfolding equation: offset `0` is a no-op. -/
theorem advanceD_zero (t ident : List Char) :
    advanceD t ident 0 = some (ident, 0) := by
  cases ident with
  | nil => rfl
  | cons c l => rfl

/-- Unfolding equation: empty identifier, non-positive offset. -/
theorem advanceD_nil_nonpos (t : List Char) (i : Int) (h : ¬ 0 < i) :
    advanceD t [] i = some ([], 0) := by
  rw [advanceD, advanceDFuel_succ]
  simp [advanceDStep, h]

/-- Unfolding equation: empty identifier, positive offset — push the
table's first symbol and recurse with `i - 1`. -/
theorem advanceD_nil_pos (t : List Char) (i : Int) (c : Char)
    (hip : 0 < i) (hc : t.head? = some c) :
    advanceD t [] i = (advanceD t [c] (i - 1)).map (fun r => (r.1, r.2 + 1)) := by
  have h1 : i.natAbs + 1 = ((i - 1).natAbs + 1) + 1 := by omega
  rw [advanceD, h1, advanceDFuel_succ]
  simp [advanceDStep, hip, hc, advanceD]

/-- Unfolding equation: borrow — negative offset underflowing the rightmost
digit pops it and recurses with `i + 1`. -/
theorem advanceD_borrow (t ident : List Char) (i : Int) (a : Char) (x : Nat)
    (hga : get_last_char ident = some a)
    (hfx : t.findIdx? (fun y => a == y) = some x)
    (hneg : i < 0) (hy : i + (x : Int) < 0) :
    advanceD t ident i
      = (advanceD t ident.dropLast (i + 1)).map (fun r => (r.1, r.2 + 1)) := by
  have hid : ident ≠ [] := by
    intro h; subst h; simp [get_last_char] at hga
  have hi0 : i ≠ 0 := by omega
  have h1 : i.natAbs + 1 = ((i + 1).natAbs + 1) + 1 := by omega
  rw [advanceD, h1, advanceDFuel_succ]
  simp [advanceDStep, hid, hi0, hga, hfx, hneg, hy, advanceD]

/-- Unfolding equation: in-range offset replaces the rightmost symbol with
the table symbol at index `i + x`. -/
theorem advanceD_replace (t ident : List Char) (i : Int) (a : Char) (x : Nat)
    (c : Char)
    (hga : get_last_char ident = some a)
    (hfx : t.findIdx? (fun y => a == y) = some x)
    (hi0 : i ≠ 0) (hy0 : 0 ≤ i + (x : Int))
    (hyl : i + (x : Int) < (t.length : Int))
    (hc : t.get? (i + (x : Int)).toNat = some c) :
    advanceD t ident i = some (replace_last_char ident c, 0) := by
  have hid : ident ≠ [] := by
    intro h; subst h; simp [get_last_char] at hga
  rw [List.get?_eq_getElem?] at hc
  rw [advanceD, advanceDFuel_succ]
  by_cases hneg : i < 0
  · have hy : ¬ i + (x : Int) < 0 := by omega
    simp [advanceDStep, hid, hi0, hga, hfx, hneg, hy, hc]
  · have hcar : ¬ ((t.length : Int) ≤ i + (x : Int)) := by omega
    simp [advanceDStep, hid, hi0, hga, hfx, hneg, hcar, hc]

/-- Unfolding equation: carry — positive offset overflowing the table
replaces the rightmost symbol with the table's last symbol, appends the
first symbol, and recurses with `i + x - |table|`. -/
theorem advanceD_carry (t ident : List Char) (i : Int) (a : Char) (x : Nat)
    (l c : Char)
    (hga : get_last_char ident = some a)
    (hfx : t.findIdx? (fun y => a == y) = some x)
    (hip : 0 < i) (hcar : (t.length : Int) ≤ i + (x : Int))
    (hl : t.getLast? = some l) (hc : t.head? = some c) :
    advanceD t ident i
      = (advanceD t (replace_last_char ident l ++ [c])
            (i + (x : Int) - (t.length : Int))).map
          (fun r => (r.1, r.2 + 1)) := by
  have hid : ident ≠ [] := by
    intro h; subst h; simp [get_last_char] at hga
  have hx : x < t.length := (List.findIdx?_eq_some_iff_findIdx_eq.mp hfx).1
  have hneg : ¬ i < 0 := by omega
  have hi0 : i ≠ 0 := by omega
  rw [advanceD, advanceDFuel_succ]
  simp [advanceDStep, hid, hi0, hga, hfx, hneg, hcar, hl, hc]
  rw [advanceD, advanceDFuel_congr t i.natAbs
    ((i + (x : Int) - (t.length : Int)).natAbs + 1) _ _ (by omega) (by omega)]

/-- `advance`-level unfolding: offset `0` is a no-op. -/
theorem advance_zero (t ident : List Char) : advance t ident 0 = some ident := by
  rw [advance_eq_map_fst, advanceD_zero]; rfl

/-- `advance`-level unfolding: empty identifier, non-positive offset. -/
theorem advance_nil_nonpos (t : List Char) (i : Int) (h : ¬ 0 < i) :
    advance t [] i = some [] := by
  rw [advance_eq_map_fst, advanceD_nil_nonpos t i h]; rfl

/-- `advance`-level unfolding: empty identifier, positive offset. -/
theorem advance_nil_pos (t : List Char) (i : Int) (c : Char)
    (hip : 0 < i) (hc : t.head? = some c) :
    advance t [] i = advance t [c] (i - 1) := by
  rw [advance_eq_map_fst, advanceD_nil_pos t i c hip hc, map_fst_step,
    ← advance_eq_map_fst]

/-- `advance`-level unfolding: borrow. -/
theorem advance_borrow (t ident : List Char) (i : Int) (a : Char) (x : Nat)
    (hga : get_last_char ident = some a)
    (hfx : t.findIdx? (fun y => a == y) = some x)
    (hneg : i < 0) (hy : i + (x : Int) < 0) :
    advance t ident i = advance t ident.dropLast (i + 1) := by
  rw [advance_eq_map_fst, advanceD_borrow t ident i a x hga hfx hneg hy,
    map_fst_step, ← advance_eq_map_fst]

/-- `advance`-level unfolding: in-range replacement. -/
theorem advance_replace (t ident : List Char) (i : Int) (a : Char) (x : Nat)
    (c : Char)
    (hga : get_last_char ident = some a)
    (hfx : t.findIdx? (fun y => a == y) = some x)
    (hi0 : i ≠ 0) (hy0 : 0 ≤ i + (x : Int))
    (hyl : i + (x : Int) < (t.length : Int))
    (hc : t.get? (i + (x : Int)).toNat = some c) :
    advance t ident i = some (replace_last_char ident c) := by
  rw [advance_eq_map_fst, advanceD_replace t ident i a x c hga hfx hi0 hy0 hyl hc]
  rfl

/-- `advance`-level unfolding: carry. -/
theorem advance_carry (t ident : List Char) (i : Int) (a : Char) (x : Nat)
    (l c : Char)
    (hga : get_last_char ident = some a)
    (hfx : t.findIdx? (fun y => a == y) = some x)
    (hip : 0 < i) (hcar : (t.length : Int) ≤ i + (x : Int))
    (hl : t.getLast? = some l) (hc : t.head? = some c) :
    advance t ident i
      = advance t (replace_last_char ident l ++ [c])
          (i + (x : Int) - (t.length : Int)) := by
  rw [advance_eq_map_fst, advanceD_carry t ident i a x l c hga hfx hip hcar hl hc,
    map_fst_step, ← advance_eq_map_fst]



/-- A character present in the table is found by the code's lookup, at the
index of its first occurrence. -/
theorem findIdx?_some_of_mem {t : List Char} {c : Char} (h : c ∈ t) :
    t.findIdx? (fun y => c == y) = some (idx t c) :=
  List.findIdx?_eq_some_of_exists ⟨c, h, by simp⟩

theorem idx_lt_length {t : List Char} {c : Char} (h : c ∈ t) :
    idx t c < t.length :=
  List.findIdx_lt_length_of_exists ⟨c, h, by simp⟩

theorem get?_idx {t : List Char} {c : Char} (h : c ∈ t) :
    t.get? (idx t c) = some c := by
  have h1 := findIdx?_some_of_mem h
  rw [List.findIdx?_eq_some_iff_getElem] at h1
  obtain ⟨hlt, hp, _⟩ := h1
  have hc : c = t[idx t c] := by
    have := hp
    simp only [] at this
    exact eq_of_beq this
  rw [List.get?_eq_getElem?, List.getElem?_eq_getElem hlt, ← hc]

/-- The first-match index is at most any index where the character occurs. -/
theorem idx_le_of_get? {t : List Char} {j : Nat} {c : Char}
    (h : t.get? j = some c) : idx t c ≤ j := by
  rw [List.get?_eq_getElem?] at h
  have hj : j < t.length := by
    by_contra hcon
    rw [List.getElem?_eq_none (Nat.le_of_not_lt hcon)] at h
    cases h
  have hcj : t[j] = c := by
    rw [List.getElem?_eq_getElem hj] at h
    exact Option.some.inj h
  by_contra hcon
  exact absurd (by simp [hcj] : (fun y => c == y) (t.get ⟨j, hj⟩) = true)
    (by simpa using List.not_of_lt_findIdx (Nat.lt_of_not_le hcon))

/-- With distinct symbols, the lookup inverts indexing. -/
theorem idx_of_get? {t : List Char} {n : Nat} {c : Char} (hnd : t.Nodup)
    (hn : t.get? n = some c) : idx t c = n := by
  have hmem : c ∈ t := List.get?_mem hn
  have hlt : idx t c < t.length := idx_lt_length hmem
  rw [List.get?_eq_getElem?] at hn
  have hnlt : n < t.length := by
    by_contra hcon
    rw [List.getElem?_eq_none (Nat.le_of_not_lt hcon)] at hn
    cases hn
  have h1 : t[idx t c] = c := by
    have := get?_idx hmem
    rw [List.get?_eq_getElem?, List.getElem?_eq_getElem hlt] at this
    exact Option.some.inj this
  have h2 : t[n] = c := by
    rw [List.getElem?_eq_getElem hnlt] at hn
    exact Option.some.inj hn
  exact (List.Nodup.getElem_inj_iff hnd).mp (h1.trans h2.symm)

theorem idx_head {t : List Char} {c : Char} (hc : t.head? = some c) :
    idx t c = 0 := by
  cases t with
  | nil => cases hc
  | cons a l =>
    have : a = c := by simpa using hc
    subst this
    simp [idx, List.findIdx_cons]

theorem tval_concat (t ds : List Char) (d : Char) :
    tval t (ds ++ [d]) = tval t ds + idx t d + 1 := by
  simp [tval, List.foldl_append]

theorem tval_nil (t : List Char) : tval t [] = 0 := rfl

/-- Positive offsets: `advance` succeeds from any identifier over a
non-empty table, the result stays over the table, the enumeration value
grows by at most the offset, and the length grows by exactly the recursion
depth. -/
theorem advanceD_pos_total (t : List Char) (ht : t ≠ []) :
    ∀ (n : Nat) (ident : List Char), validIdent t ident →
      ∃ s d, advanceD t ident (n : Int) = some (s, d) ∧ validIdent t s ∧
        tval t s ≤ tval t ident + n ∧ s.length = ident.length + d := by
  intro n
  induction n using Nat.strong_induction_on with
  | _ n ih =>
    intro ident hv
    by_cases hn0 : n = 0
    · subst hn0
      exact ⟨ident, 0, advanceD_zero t ident, hv, by omega, by omega⟩
    · have hnpos : (0 : Int) < (n : Int) := by
        have := Nat.pos_of_ne_zero hn0
        omega
      obtain ⟨c, hc⟩ : ∃ c, t.head? = some c := by
        cases t with
        | nil => exact absurd rfl ht
        | cons a l => exact ⟨a, rfl⟩
      have hcm : c ∈ t := List.mem_of_mem_head? (by simp [hc])
      have hc0 : idx t c = 0 := idx_head hc
      rcases List.eq_nil_or_concat' ident with rfl | ⟨ds, a, rfl⟩
      · have hstep := advanceD_nil_pos t (n : Int) c hnpos hc
        have hv1 : validIdent t [c] := by
          intro z hz
          rw [List.mem_singleton] at hz
          subst hz
          exact hcm
        have hn1 : ((n : Int) - 1) = ((n - 1 : Nat) : Int) := by omega
        obtain ⟨s, d, hsd, hvs, hval, hlen⟩ := ih (n - 1) (by omega) [c] hv1
        refine ⟨s, d + 1, ?_, hvs, ?_, ?_⟩
        · rw [hstep, hn1, hsd]
          rfl
        · have h1 := tval_concat t [] c
          rw [tval_nil] at h1
          simp only [List.nil_append] at h1
          rw [tval_nil]
          omega
        · simp only [List.length_nil, List.length_singleton] at hlen ⊢
          omega
      · have ham : a ∈ t := hv a (by simp)
        have hfx := findIdx?_some_of_mem ham
        have hga : get_last_char (ds ++ [a]) = some a := by
          simp [get_last_char]
        have hxlt : idx t a < t.length := idx_lt_length ham
        by_cases hcar : (t.length : Int) ≤ (n : Int) + (idx t a : Int)
        · obtain ⟨l, hl⟩ : ∃ l, t.getLast? = some l :=
            ⟨t.getLast ht, List.getLast?_eq_getLast t ht⟩
          have hlm : l ∈ t := List.mem_of_getLast?_eq_some hl
          have hstep := advanceD_carry t (ds ++ [a]) (n : Int) a (idx t a) l c
            hga hfx hnpos hcar hl hc
          have hid2 : replace_last_char (ds ++ [a]) l ++ [c] = ds ++ [l, c] := by
            simp [replace_last_char]
          have hcast : (n : Int) + (idx t a : Int) - (t.length : Int)
              = ((n + idx t a - t.length : Nat) : Int) := by omega
          have hv2 : validIdent t (ds ++ [l, c]) := by
            intro z hz
            simp only [List.mem_append, List.mem_cons, List.mem_singleton,
              List.not_mem_nil, or_false] at hz
            rcases hz with hz | hz | hz
            · exact hv z (by simp [hz])
            · subst hz; exact hlm
            · subst hz; exact hcm
          obtain ⟨s, d, hsd, hvs, hval, hlen⟩ :=
            ih (n + idx t a - t.length) (by omega) (ds ++ [l, c]) hv2
          refine ⟨s, d + 1, ?_, hvs, ?_, ?_⟩
          · rw [hstep, hid2, hcast, hsd]
            rfl
          · have h1 : tval t (ds ++ [l, c]) = tval t ds + idx t l + idx t c + 2 := by
              have e : ds ++ [l, c] = (ds ++ [l]) ++ [c] := by simp
              rw [e, tval_concat, tval_concat]
              omega
            have h2 : tval t (ds ++ [a]) = tval t ds + idx t a + 1 :=
              tval_concat t ds a
            have h3 : idx t l < t.length := idx_lt_length hlm
            omega
          · simp only [List.length_append, List.length_cons,
              List.length_singleton, List.length_nil] at hlen ⊢
            omega
        · have hy0 : (0 : Int) ≤ (n : Int) + (idx t a : Int) := by omega
          have hylt : (n : Int) + (idx t a : Int) < (t.length : Int) := by omega
          have htn : ((n : Int) + (idx t a : Int)).toNat < t.length := by omega
          obtain ⟨c2, hc2⟩ : ∃ c2,
              t.get? (((n : Int) + (idx t a : Int)).toNat) = some c2 :=
            ⟨_, by rw [List.get?_eq_getElem?, List.getElem?_eq_getElem htn]⟩
          have hstep := advanceD_replace t (ds ++ [a]) (n : Int) a (idx t a) c2
            hga hfx (by omega) hy0 hylt hc2
          have hc2m : c2 ∈ t := List.get?_mem hc2
          refine ⟨ds ++ [c2], 0, ?_, ?_, ?_, ?_⟩
          · rw [hstep]
            simp [replace_last_char]
          · intro z hz
            simp only [List.mem_append, List.mem_singleton] at hz
            rcases hz with hz | hz
            · exact hv z (by simp [hz])
            · subst hz; exact hc2m
          · have h1 : tval t (ds ++ [c2]) = tval t ds + idx t c2 + 1 :=
              tval_concat t ds c2
            have h2 : tval t (ds ++ [a]) = tval t ds + idx t a + 1 :=
              tval_concat t ds a
            have h3 : idx t c2 ≤ ((n : Int) + (idx t a : Int)).toNat :=
              idx_le_of_get? hc2
            omega
          · simp

/-- Non-positive offsets: `advance` succeeds from any identifier over a
non-empty table, the result stays over the table, and the length shrinks by
exactly the recursion depth. -/
theorem advanceD_nonpos_total (t : List Char) (ht : t ≠ []) :
    ∀ (ident : List Char), validIdent t ident → ∀ i : Int, i ≤ 0 →
      ∃ s d, advanceD t ident i = some (s, d) ∧ validIdent t s ∧
        s.length + d = ident.length := by
  intro ident
  induction ident using List.reverseRecOn with
  | nil =>
    intro _ i hi
    refine ⟨[], 0, advanceD_nil_nonpos t i (by omega), ?_, by simp⟩
    intro z hz
    cases hz
  | append_singleton ds a ihds =>
    intro hv i hi
    by_cases hi0 : i = 0
    · subst hi0
      exact ⟨ds ++ [a], 0, advanceD_zero t (ds ++ [a]), hv, by omega⟩
    · have hneg : i < 0 := by omega
      have ham : a ∈ t := hv a (by simp)
      have hfx := findIdx?_some_of_mem ham
      have hga : get_last_char (ds ++ [a]) = some a := by
        simp [get_last_char]
      by_cases hy : i + (idx t a : Int) < 0
      · have hstep := advanceD_borrow t (ds ++ [a]) i a (idx t a) hga hfx hneg hy
        have hvds : validIdent t ds := fun z hz => hv z (by simp [hz])
        obtain ⟨s, d, hsd, hvs, hlen⟩ := ihds hvds (i + 1) (by omega)
        refine ⟨s, d + 1, ?_, hvs, ?_⟩
        · rw [hstep, List.dropLast_concat, hsd]
          rfl
        · simp only [List.length_append, List.length_singleton]
          omega
      · have hy0 : (0 : Int) ≤ i + (idx t a : Int) := by omega
        have hxlt : idx t a < t.length := idx_lt_length ham
        have hylt : i + (idx t a : Int) < (t.length : Int) := by omega
        have htn : (i + (idx t a : Int)).toNat < t.length := by omega
        obtain ⟨c2, hc2⟩ : ∃ c2,
            t.get? ((i + (idx t a : Int)).toNat) = some c2 :=
          ⟨_, by rw [List.get?_eq_getElem?, List.getElem?_eq_getElem htn]⟩
        have hstep := advanceD_replace t (ds ++ [a]) i a (idx t a) c2
          hga hfx hi0 hy0 hylt hc2
        refine ⟨ds ++ [c2], 0, ?_, ?_, ?_⟩
        · rw [hstep]
          simp [replace_last_char]
        · intro z hz
          simp only [List.mem_append, List.mem_singleton] at hz
          rcases hz with hz | hz
          · exact hv z (by simp [hz])
          · subst hz; exact List.get?_mem hc2
        · simp

/-- Regressing by at least the identifier's enumeration value pops every
digit and ends at the empty identifier. -/
theorem advanceD_to_empty (t : List Char) (ht : t ≠ []) :
    ∀ (ident : List Char), validIdent t ident → ∀ i : Int,
      i + (tval t ident : Int) ≤ 0 →
      advanceD t ident i = some ([], ident.length) := by
  intro ident
  induction ident using List.reverseRecOn with
  | nil =>
    intro _ i hi
    rw [tval_nil] at hi
    rw [advanceD_nil_nonpos t i (by omega)]
    rfl
  | append_singleton ds a ihds =>
    intro hv i hi
    have ham : a ∈ t := hv a (by simp)
    have hfx := findIdx?_some_of_mem ham
    have hga : get_last_char (ds ++ [a]) = some a := by
      simp [get_last_char]
    rw [tval_concat] at hi
    have hneg : i < 0 := by omega
    have hy : i + (idx t a : Int) < 0 := by omega
    have hstep := advanceD_borrow t (ds ++ [a]) i a (idx t a) hga hfx hneg hy
    have hvds : validIdent t ds := fun z hz => hv z (by simp [hz])
    have hrec := ihds hvds (i + 1) (by omega)
    rw [hstep, List.dropLast_concat, hrec]
    simp

/-- Additivity of `advance` for non-negative offsets, over a duplicate-free
table: advancing by `n` and then by `m` equals advancing by `n + m`. -/
theorem advance_add_aux (t : List Char) (ht : t ≠ []) (hnd : t.Nodup) :
    ∀ (n : Nat) (ident : List Char), validIdent t ident → ∀ (m : Int), 0 ≤ m →
      (advance t ident (n : Int)).bind (fun s => advance t s m)
        = advance t ident ((n : Int) + m) := by
  intro n
  induction n using Nat.strong_induction_on with
  | _ n ih =>
    intro ident hv m hm
    by_cases hn0 : n = 0
    · subst hn0
      simp only [Nat.cast_zero, advance_zero, Option.some_bind, zero_add]
    · have hnpos : (0 : Int) < (n : Int) := by
        have := Nat.pos_of_ne_zero hn0
        omega
      obtain ⟨c, hc⟩ : ∃ c, t.head? = some c := by
        cases t with
        | nil => exact absurd rfl ht
        | cons a l => exact ⟨a, rfl⟩
      have hcm : c ∈ t := List.mem_of_mem_head? (by simp [hc])
      rcases List.eq_nil_or_concat' ident with rfl | ⟨ds, a, rfl⟩
      · rw [advance_nil_pos t (n : Int) c hnpos hc,
          advance_nil_pos t ((n : Int) + m) c (by omega) hc]
        have hv1 : validIdent t [c] := by
          intro z hz
          rw [List.mem_singleton] at hz
          subst hz
          exact hcm
        have hn1 : (n : Int) - 1 = ((n - 1 : Nat) : Int) := by omega
        rw [hn1, ih (n - 1) (by omega) [c] hv1 m hm]
        congr 1
        omega
      · have ham : a ∈ t := hv a (by simp)
        have hfx := findIdx?_some_of_mem ham
        have hga : get_last_char (ds ++ [a]) = some a := by
          simp [get_last_char]
        have hxlt : idx t a < t.length := idx_lt_length ham
        by_cases hcar : (t.length : Int) ≤ (n : Int) + (idx t a : Int)
        · obtain ⟨l, hl⟩ : ∃ l, t.getLast? = some l :=
            ⟨t.getLast ht, List.getLast?_eq_getLast t ht⟩
          have hlm : l ∈ t := List.mem_of_getLast?_eq_some hl
          rw [advance_carry t (ds ++ [a]) (n : Int) a (idx t a) l c
              hga hfx hnpos hcar hl hc,
            advance_carry t (ds ++ [a]) ((n : Int) + m) a (idx t a) l c
              hga hfx (by omega) (by omega) hl hc]
          have hid2v : validIdent t (replace_last_char (ds ++ [a]) l ++ [c]) := by
            intro z hz
            simp only [replace_last_char, List.dropLast_concat, List.mem_append,
              List.mem_singleton] at hz
            rcases hz with (hz | hz) | hz
            · exact hv z (by simp [hz])
            · subst hz; exact hlm
            · subst hz; exact hcm
          have hcast : (n : Int) + (idx t a : Int) - (t.length : Int)
              = ((n + idx t a - t.length : Nat) : Int) := by omega
          rw [hcast, ih (n + idx t a - t.length) (by omega) _ hid2v m hm]
          congr 1
          omega
        · have hy0 : (0 : Int) ≤ (n : Int) + (idx t a : Int) := by omega
          have hylt : (n : Int) + (idx t a : Int) < (t.length : Int) := by omega
          have htn : ((n : Int) + (idx t a : Int)).toNat < t.length := by omega
          obtain ⟨c2, hc2⟩ : ∃ c2,
              t.get? (((n : Int) + (idx t a : Int)).toNat) = some c2 :=
            ⟨_, by rw [List.get?_eq_getElem?, List.getElem?_eq_getElem htn]⟩
          rw [advance_replace t (ds ++ [a]) (n : Int) a (idx t a) c2
            hga hfx (by omega) hy0 hylt hc2]
          have hc2m : c2 ∈ t := List.get?_mem hc2
          have hrepl : replace_last_char (ds ++ [a]) c2 = ds ++ [c2] := by
            simp [replace_last_char]
          rw [hrepl]
          simp only [Option.some_bind]
          have hidxc : idx t c2 = ((n : Int) + (idx t a : Int)).toNat :=
            idx_of_get? hnd hc2
          have hfxc := findIdx?_some_of_mem hc2m
          have hgac : get_last_char (ds ++ [c2]) = some c2 := by
            simp [get_last_char]
          by_cases hm0 : m = 0
          · subst hm0
            rw [advance_zero, add_zero,
              advance_replace t (ds ++ [a]) (n : Int) a (idx t a) c2
                hga hfx (by omega) hy0 hylt hc2, hrepl]
          · by_cases hcar2 : (t.length : Int) ≤ m + (idx t c2 : Int)
            · obtain ⟨l, hl⟩ : ∃ l, t.getLast? = some l :=
                ⟨t.getLast ht, List.getLast?_eq_getLast t ht⟩
              rw [advance_carry t (ds ++ [c2]) m c2 (idx t c2) l c
                  hgac hfxc (by omega) (by omega) hl hc,
                advance_carry t (ds ++ [a]) ((n : Int) + m) a (idx t a) l c
                  hga hfx (by omega) (by omega) hl hc]
              have he : replace_last_char (ds ++ [c2]) l
                  = replace_last_char (ds ++ [a]) l := by
                simp [replace_last_char]
              rw [he]
              congr 1
              omega
            · have hy20 : (0 : Int) ≤ m + (idx t c2 : Int) := by omega
              have hy2lt : m + (idx t c2 : Int) < (t.length : Int) := by omega
              have htn2 : (m + (idx t c2 : Int)).toNat < t.length := by omega
              obtain ⟨c3, hc3⟩ : ∃ c3,
                  t.get? ((m + (idx t c2 : Int)).toNat) = some c3 :=
                ⟨_, by rw [List.get?_eq_getElem?, List.getElem?_eq_getElem htn2]⟩
              rw [advance_replace t (ds ++ [c2]) m c2 (idx t c2) c3
                hgac hfxc hm0 hy20 hy2lt hc3]
              have hc3b : t.get? (((n : Int) + m + (idx t a : Int)).toNat)
                  = some c3 := by
                have he2 : ((n : Int) + m + (idx t a : Int)).toNat
                    = (m + (idx t c2 : Int)).toNat := by omega
                rw [he2]
                exact hc3
              rw [advance_replace t (ds ++ [a]) ((n : Int) + m) a (idx t a) c3
                hga hfx (by omega) (by omega) (by omega) hc3b]
              simp [replace_last_char]

/-- C1: for every table and state, `advance` follows the specified
recursive transition: empty identifier with positive offset appends the
first symbol and recurses with `offset - 1`; overflow (`y = offset + x ≥
|table|`, `offset > 0`) replaces the rightmost symbol with the last table
symbol, appends the first symbol and recurses with `y - |table|`; borrow
(`offset < 0`, `y < 0`) removes the rightmost digit and recurses with
`offset + 1`; otherwise (`0 ≤ y < |table|`, `offset ≠ 0`) it replaces the
rightmost symbol with the table symbol at index `y`. -/
theorem advance_follows_spec_transition :
    (∀ (t : List Char) (i : Int) (c : Char), t.head? = some c → 0 < i →
        advance t [] i = advance t [c] (i - 1)) ∧
    (∀ (t ident : List Char) (i : Int) (a : Char) (x : Nat) (l c : Char),
        get_last_char ident = some a →
        t.findIdx? (fun y => a == y) = some x →
        0 < i → (t.length : Int) ≤ i + (x : Int) →
        t.getLast? = some l → t.head? = some c →
        advance t ident i
          = advance t (replace_last_char ident l ++ [c])
              (i + (x : Int) - (t.length : Int))) ∧
    (∀ (t ident : List Char) (i : Int) (a : Char) (x : Nat),
        get_last_char ident = some a →
        t.findIdx? (fun y => a == y) = some x →
        i < 0 → i + (x : Int) < 0 →
        advance t ident i = advance t ident.dropLast (i + 1)) ∧
    (∀ (t ident : List Char) (i : Int) (a : Char) (x : Nat) (c : Char),
        get_last_char ident = some a →
        t.findIdx? (fun y => a == y) = some x →
        i ≠ 0 → 0 ≤ i + (x : Int) → i + (x : Int) < (t.length : Int) →
        t.get? (i + (x : Int)).toNat = some c →
        advance t ident i = some (replace_last_char ident c)) := by
  refine ⟨?_, ?_, ?_, ?_⟩
  · intro t i c hc hip
    exact advance_nil_pos t i c hip hc
  · intro t ident i a x l c hga hfx hip hcar hl hc
    exact advance_carry t ident i a x l c hga hfx hip hcar hl hc
  · intro t ident i a x hga hfx hneg hy
    exact advance_borrow t ident i a x hga hfx hneg hy
  · intro t ident i a x c hga hfx hi0 hy0 hyl hc
    exact advance_replace t ident i a x c hga hfx hi0 hy0 hyl hc

/-- Witness for C1: the four transitions instantiated on the table
`{a,b,c}`. -/
theorem advance_follows_spec_transition_check :
    (advance ['a', 'b', 'c'] [] 1 = advance ['a', 'b', 'c'] ['a'] 0) ∧
    (advance ['a', 'b', 'c'] ['c'] 1
      = advance ['a', 'b', 'c'] (replace_last_char ['c'] 'c' ++ ['a'])
          (1 + (2 : Int) - 3)) ∧
    (advance ['a', 'b', 'c'] ['a'] (-1)
      = advance ['a', 'b', 'c'] (['a'].dropLast) (-1 + 1)) ∧
    (advance ['a', 'b', 'c'] ['a'] 1 = some (replace_last_char ['a'] 'b')) := by
  obtain ⟨h1, h2, h3, h4⟩ := advance_follows_spec_transition
  refine ⟨h1 ['a', 'b', 'c'] 1 'a' (by decide) (by decide), ?_, ?_, ?_⟩
  · have := h2 ['a', 'b', 'c'] ['c'] 1 'c' 2 'c' 'a' (by decide) (by decide)
      (by decide) (by decide) (by decide) (by decide)
    simpa using this
  · have := h3 ['a', 'b', 'c'] ['a'] (-1) 'a' 0 (by decide) (by decide)
      (by decide) (by decide)
    simpa using this
  · have := h4 ['a', 'b', 'c'] ['a'] 1 'a' 0 'b' (by decide) (by decide)
      (by decide) (by decide) (by decide) (by decide)
    simpa using this

/-- C2 (code bug): with table `{a,b,c}` and identifier `"z"`, whose symbol
is not in the table, `advance(1)` hits the `position(..).unwrap()` panic
(modelled as `none`) instead of treating the symbol as position 0. -/
theorem advance_missing_symbol_panics :
    advance ['a', 'b', 'c'] ['z'] 1 = none := by decide

/-- C3 (code bug): a state reachable through public operations alone —
`new({a,b,c})`, `advance(3)` (reaching `"c"`), then the accepted
`set_table({x,y,z})` — makes the next `advance` panic (modelled as
`none`). -/
theorem public_ops_reach_panic :
    (IdentGen.new ['a', 'b', 'c']).advance 3
        = some { ident := ['c'], table := ['a', 'b', 'c'] } ∧
    ({ ident := ['c'], table := ['a', 'b', 'c'] } : IdentGen).set_table
        ['x', 'y', 'z']
        = ({ ident := ['c'], table := ['x', 'y', 'z'] }, true) ∧
    ({ ident := ['c'], table := ['x', 'y', 'z'] } : IdentGen).next = none := by
  refine ⟨by decide, by decide, by decide⟩

/-- Counterexample to C4 as stated: over `{a,b,c}` from `"cb"` (position 5
of the code's own enumeration, reachable from empty by five `next` calls),
`advance(-1)` then `advance(-1)` gives `"c"`, while `advance(-2)` gives
`"b"` — all intermediate positions (5, 4, 3) are non-negative. -/
theorem advance_add_counterexample :
    ((advance ['a', 'b', 'c'] ['c', 'b'] (-1)).bind
        (fun s => advance ['a', 'b', 'c'] s (-1))
      = some ['c']) ∧
    advance ['a', 'b', 'c'] ['c', 'b'] (-2) = some ['b'] ∧
    ¬ ((advance ['a', 'b', 'c'] ['c', 'b'] (-1)).bind
          (fun s => advance ['a', 'b', 'c'] s (-1))
        = advance ['a', 'b', 'c'] ['c', 'b'] (-2)) := by
  refine ⟨by decide, by decide, by decide⟩

/-- C4 (amended): over a non-empty duplicate-free table and for an
identifier drawn from the table, advancing by `n` and then by `m` equals
advancing by `n + m` for all non-negative `n` and `m`. -/
theorem advance_add_nonneg (t ident : List Char) (n m : Int)
    (ht : t ≠ []) (hnd : t.Nodup) (hv : validIdent t ident)
    (hn : 0 ≤ n) (hm : 0 ≤ m) :
    (advance t ident n).bind (fun s => advance t s m)
      = advance t ident (n + m) := by
  have h1 : n = ((n.toNat : Nat) : Int) := by omega
  rw [h1]
  exact advance_add_aux t ht hnd n.toNat ident hv m hm

/-- Witness for C4 (amended) at `n = 1`, `m = 2` from the empty
identifier over `{a,b,c}`. -/
theorem advance_add_nonneg_check :
    (advance ['a', 'b', 'c'] [] 1).bind (fun s => advance ['a', 'b', 'c'] s 2)
      = advance ['a', 'b', 'c'] [] (1 + 2) :=
  advance_add_nonneg ['a', 'b', 'c'] [] 1 2 (by decide) (by decide)
    (by intro c hc; cases hc) (by decide) (by decide)

/-- C5: over any non-empty table, advancing the empty identifier by
`n ≥ 0` and then by `-n` returns the empty identifier. -/
theorem advance_roundtrip_empty (t : List Char) (n : Int)
    (ht : t ≠ []) (hn : 0 ≤ n) :
    (advance t [] n).bind (fun s => advance t s (-n)) = some [] := by
  have hvnil : validIdent t [] := fun c hc => absurd hc (List.not_mem_nil c)
  obtain ⟨s, d, hsd, hvs, hval, hlen⟩ :=
    advanceD_pos_total t ht n.toNat [] hvnil
  have hcast : ((n.toNat : Nat) : Int) = n := by omega
  rw [hcast] at hsd
  have hadv : advance t [] n = some s := by
    rw [advance_eq_map_fst, hsd]
    rfl
  rw [hadv]
  simp only [Option.some_bind]
  have hneg : -n + (tval t s : Int) ≤ 0 := by
    have h0 : tval t ([] : List Char) = 0 := tval_nil t
    omega
  have hend := advanceD_to_empty t ht s hvs (-n) hneg
  rw [advance_eq_map_fst, hend]
  rfl

/-- Witness for C5 at `n = 4` over `{a,b,c}` (reaching `"ca"` and coming
back). -/
theorem advance_roundtrip_empty_check :
    (advance ['a', 'b', 'c'] [] 4).bind
      (fun s => advance ['a', 'b', 'c'] s (-4)) = some [] :=
  advance_roundtrip_empty ['a', 'b', 'c'] 4 (by decide) (by decide)

/-- C6: a negative offset applied to the empty identifier saturates —
it returns the empty identifier, with no error outcome. -/
theorem advance_neg_empty_saturates (t : List Char) (i : Int)
    (ht : t ≠ []) (hi : i < 0) :
    advance t [] i = some [] :=
  advance_nil_nonpos t i (by omega)

/-- Witness for C6 at offset `-5` over `{a,b,c}`. -/
theorem advance_neg_empty_saturates_check :
    advance ['a', 'b', 'c'] [] (-5) = some [] :=
  advance_neg_empty_saturates ['a', 'b', 'c'] (-5) (by decide) (by decide)

/-- C7: `set_table` with an empty table is rejected (the `None` outcome,
modelled by the `false` flag) and leaves the state unchanged; with a
non-empty table it installs it and succeeds; while construction with an
empty table is not an error and silently substitutes `DEFAULT_TABLE`
(both `IdentGen::new` and `IdentGenOwned::new`). -/
theorem set_table_rejects_empty_new_defaults :
    (∀ g : IdentGen, g.set_table [] = (g, false)) ∧
    (∀ (g : IdentGen) (t : List Char), t ≠ [] →
        g.set_table t = ({ ident := g.ident, table := t }, true)) ∧
    IdentGen.new [] = { ident := [], table := DEFAULT_TABLE } ∧
    IdentGenOwned.new [] = { ident := [], table := DEFAULT_TABLE } := by
  refine ⟨?_, ?_, by decide, by decide⟩
  · intro g
    simp [IdentGen.set_table]
  · intro g t htne
    simp [IdentGen.set_table, htne]

/-- Witness for C7 on a concrete state. -/
theorem set_table_rejects_empty_new_defaults_check :
    (IdentGen.mk ['a'] ['b']).set_table [] = (IdentGen.mk ['a'] ['b'], false) ∧
    (IdentGen.mk ['a'] ['b']).set_table ['x']
      = (IdentGen.mk ['a'] ['x'], true) := by
  obtain ⟨h1, h2, _, _⟩ := set_table_rejects_empty_new_defaults
  exact ⟨h1 (IdentGen.mk ['a'] ['b']),
    h2 (IdentGen.mk ['a'] ['b']) ['x'] (by decide)⟩

/-- Counterexample to C8 as stated: the 27th `next()` over the default
table yields `"_a"` (last symbol then first symbol), not the first symbol
doubled (`"aa"`). -/
theorem default_table_27th_counterexample :
    nexts DEFAULT_TABLE 27 = some ['_', 'a'] ∧
    (some ['_', 'a'] : Option (List Char)) ≠ some ['a', 'a'] := by
  refine ⟨by decide, by decide⟩

/-- C8 (amended): from empty over the 26-symbol default table, the first
26 `next()` calls produce the 26 single-symbol identifiers in table order,
and the 27th produces the two-character identifier `"_a"` (the table's
last symbol with the first symbol appended), beginning the next length
tier. -/
theorem default_table_first26_and_27th :
    (∀ j, j < 26 →
        nexts DEFAULT_TABLE (j + 1) = some [DEFAULT_TABLE.getD j 'a']) ∧
    nexts DEFAULT_TABLE 27 = some ['_', 'a'] := by
  refine ⟨by decide, by decide⟩

/-- Witness for C8 (amended) at the first tier boundary. -/
theorem default_table_first26_and_27th_check :
    nexts DEFAULT_TABLE 1 = some [DEFAULT_TABLE.getD 0 'a'] ∧
    nexts DEFAULT_TABLE 27 = some ['_', 'a'] :=
  ⟨default_table_first26_and_27th.1 0 (by decide),
    default_table_first26_and_27th.2⟩

/-- C9: over `{a,b,c}`, four sequential `next()` calls from empty produce
`a`, `b`, `c`, `ca`, and a subsequent `advance(-2)` from `"ca"` yields
`"b"` (the crate's own unit test). -/
theorem abc_next_sequence :
    nexts ['a', 'b', 'c'] 1 = some ['a'] ∧
    nexts ['a', 'b', 'c'] 2 = some ['b'] ∧
    nexts ['a', 'b', 'c'] 3 = some ['c'] ∧
    nexts ['a', 'b', 'c'] 4 = some ['c', 'a'] ∧
    advance ['a', 'b', 'c'] ['c', 'a'] (-2) = some ['b'] := by
  refine ⟨by decide, by decide, by decide, by decide, by decide⟩

/-- Counterexample to C10 as stated: from `"a"` over `{a,b,c}`,
`advance(-1)` terminates at the empty identifier after one recursive call
— depth 1 exceeds the final identifier's length 0. -/
theorem advance_depth_counterexample :
    advanceD ['a', 'b', 'c'] ['a'] (-1) = some ([], 1) ∧
    ¬ ((1 : Nat) ≤ ([] : List Char).length) := by
  refine ⟨by decide, by decide⟩

/-- C10 (amended): over a non-empty table, for an identifier drawn from
the table and any signed offset, `advance` terminates with a result, and
its recursion depth is at most the maximum of the initial and final
identifier lengths. -/
theorem advance_terminates_depth_bounded (t ident : List Char) (i : Int)
    (ht : t ≠ []) (hv : validIdent t ident) :
    ∃ s d, advanceD t ident i = some (s, d) ∧ advance t ident i = some s ∧
      d ≤ max ident.length s.length := by
  by_cases hi : 0 ≤ i
  · obtain ⟨s, d, hsd, _, _, hlen⟩ := advanceD_pos_total t ht i.toNat ident hv
    have hcast : ((i.toNat : Nat) : Int) = i := by omega
    rw [hcast] at hsd
    refine ⟨s, d, hsd, ?_, by omega⟩
    rw [advance_eq_map_fst, hsd]
    rfl
  · obtain ⟨s, d, hsd, _, hlen⟩ :=
      advanceD_nonpos_total t ht ident hv i (by omega)
    refine ⟨s, d, hsd, ?_, by omega⟩
    rw [advance_eq_map_fst, hsd]
    rfl

/-- Witness for C10 (amended) at identifier `"b"`, offset `5`, over
`{a,b,c}`. -/
theorem advance_terminates_depth_bounded_check :
    ∃ s d, advanceD ['a', 'b', 'c'] ['b'] 5 = some (s, d) ∧
      advance ['a', 'b', 'c'] ['b'] 5 = some s ∧
      d ≤ max (['b'] : List Char).length s.length :=
  advance_terminates_depth_bounded ['a', 'b', 'c'] ['b'] 5 (by decide)
    (by intro c hc; simp at hc; subst hc; decide)
